import Mathlib

set_option maxRecDepth 4000
set_option maxHeartbeats 1000000
set_option synthInstance.maxHeartbeats 200000

/-!
Verification of the envelope extraction state machine and content classifier
of the ortty inscription scanner (src/inscription.rs), as a shallow embedding.

Bytes are modelled as `Nat` (with the range invariant `< 256` carried as a
hypothesis where it matters), scripts as `List Nat`, decoded instruction
queues as `List Instr`, and the in-place `VecDeque` mutation of the Rust
extraction helpers as explicit state passing: each helper returns the result
together with the remaining queue, including on failure, because the Rust
code mutates the queue before reporting `None`.
-/

/-- A decoded script instruction (`bitcoin::script::Instruction`): either a
plain opcode byte or a push of a byte string. -/
inductive Instr where
  | op (code : Nat)
  | push (bytes : List Nat)
deriving DecidableEq

def OP_IF : Nat := 99

def OP_ENDIF : Nat := 104

def OP_CHECKSIG : Nat := 172

/-- Byte content of the protocol tag push, the ASCII bytes of the string
written with letters o r d. -/
def ordBytes : List Nat := [111, 114, 100]

/-- ASCII bytes of a string literal, used to write concrete scripts. -/
def strBytes (s : String) : List Nat := s.data.map Char.toNat

/-- Whether a byte is a UTF-8 continuation byte. -/
def isCont (b : Nat) : Bool := decide (128 ≤ b ∧ b < 192)

/-- UTF-8 decoding of a byte sequence (`std::str::from_utf8` followed by
reading out the characters): rejects overlong encodings, surrogates and
out-of-range code points, exactly as the Rust standard library does. -/
def utf8Decode : List Nat → Option (List Char)
  | [] => some []
  | b :: rest =>
    if b < 128 then
      (fun cs => Char.ofNat b :: cs) <$> utf8Decode rest
    else if b < 194 then none
    else if b < 224 then
      match rest with
      | b1 :: r =>
        if isCont b1 then
          (fun cs => Char.ofNat ((b - 192) * 64 + (b1 - 128)) :: cs) <$> utf8Decode r
        else none
      | [] => none
    else if b < 240 then
      match rest with
      | b1 :: b2 :: r =>
        if isCont b1 ∧ isCont b2 ∧ (224 < b ∨ 160 ≤ b1) ∧ (b = 237 → b1 < 160) then
          (fun cs =>
            Char.ofNat ((b - 224) * 4096 + (b1 - 128) * 64 + (b2 - 128)) :: cs) <$>
            utf8Decode r
        else none
      | _ => none
    else if b < 245 then
      match rest with
      | b1 :: b2 :: b3 :: r =>
        if isCont b1 ∧ isCont b2 ∧ isCont b3 ∧ (240 < b ∨ 144 ≤ b1) ∧ (b = 244 → b1 < 144) then
          (fun cs =>
            Char.ofNat ((b - 240) * 262144 + (b1 - 128) * 4096 + (b2 - 128) * 64 +
              (b3 - 128)) :: cs) <$> utf8Decode r
        else none
      | _ => none
    else none

/-- ASCII lowercasing of one character, modelling `str::to_lowercase` on the
characters that matter here: no non-ASCII character lowercases to any of the
ASCII letters of the probe string, so mapping only A-Z is faithful for the
containment test below. -/
def asciiLower (c : Char) : Char :=
  if 65 ≤ c.toNat ∧ c.toNat ≤ 90 then Char.ofNat (c.toNat + 32) else c

/-- Whether the first list is a prefix of the second. -/
def hasPfx : List Char → List Char → Bool
  | [], _ => true
  | _ :: _, [] => false
  | a :: as, b :: bs => a == b && hasPfx as bs

/-- Substring containment (`str::contains` with a string pattern). -/
def strContains (hay needle : List Char) : Bool :=
  hasPfx needle hay ||
    match hay with
    | [] => false
    | _ :: rest => strContains rest needle

def htmlStr : List Char := ['h', 't', 'm', 'l']

/-- Stand-in for a decoded raster image (`image::DynamicImage`); the claims
never inspect the decoded image, only whether decoding succeeded. -/
abbrev ImageData := List Nat

/-- A parsed JSON document (`serde_json::Value`); objects are association
lists with unique keys, looked up first-match. -/
inductive JsonValue where
  | null
  | bool (b : Bool)
  | num (n : Int)
  | str (s : List Char)
  | arr (elems : List JsonValue)
  | obj (fields : List (List Char × JsonValue))

instance : Inhabited JsonValue := ⟨JsonValue.null⟩

/-- The content classification (`ParsedData` in src/inscription.rs). -/
inductive ParsedData where
  | Binary
  | Html (text : List Char)
  | Image (img : ImageData)
  | Json (value : JsonValue)
  | Text (text : List Char)

/-- First-match lookup in a JSON object's field list. -/
def jsonLookup : List (List Char × JsonValue) → List Char → Option JsonValue
  | [], _ => none
  | (k, v) :: rest, key => if k = key then some v else jsonLookup rest key

/-- `serde_json::Value::get` with a string key: a field lookup on objects,
`None` on every other value. -/
def jsonGet : JsonValue → List Char → Option JsonValue
  | JsonValue.obj fields, key => jsonLookup fields key
  | _, _ => none

def pKey : List Char := ['p']

def brc20Str : List Char := ['b', 'r', 'c', '-', '2', '0']

/-- `ParsedData::is_brc20`: `json.get` of the key p, defaulted to null, is
compared against the string literal brc-20; a `serde_json::Value` equals a
string slice exactly when it is a `String` with those characters. -/
def is_brc20 : ParsedData → Bool
  | ParsedData.Json j =>
    match (jsonGet j pKey).getD JsonValue.null with
    | JsonValue.str s => decide (s = brc20Str)
    | _ => false
  | _ => false

/-- `parse_data` (the content classifier), parameterised by the JSON parser
(`serde_json::from_str`) and the image sniffer (`image::load_from_memory`),
which are external library collaborators. -/
def parse_data (jsonParse : List Char → Option JsonValue)
    (imageLoad : List Nat → Option ImageData)
    (data : List Nat) (mime : List Char) : ParsedData :=
  match utf8Decode data with
  | some text =>
    if strContains (mime.map asciiLower) htmlStr then ParsedData.Html text
    else
      match jsonParse text with
      | some value => ParsedData.Json value
      | none => ParsedData.Text text
  | none =>
    match imageLoad data with
    | some img => ParsedData.Image img
    | none => ParsedData.Binary

/-- Instruction decoding (`Script::instructions().collect()`), written with a
fuel argument for structural recursion; every step consumes at least the
opcode byte, so fuel equal to the byte length never runs out. `none` models
the collected decoding error. -/
def decodeAux : Nat → List Nat → Option (List Instr)
  | _, [] => some []
  | 0, _ :: _ => none
  | fuel + 1, b :: rest =>
    if b = 0 then (fun is => Instr.push [] :: is) <$> decodeAux fuel rest
    else if b ≤ 75 then
      if rest.length < b then none
      else (fun is => Instr.push (rest.take b) :: is) <$> decodeAux fuel (rest.drop b)
    else if b = 76 then
      match rest with
      | [] => none
      | n :: rest2 =>
        if rest2.length < n then none
        else (fun is => Instr.push (rest2.take n) :: is) <$> decodeAux fuel (rest2.drop n)
    else if b = 77 then
      match rest with
      | n0 :: n1 :: rest2 =>
        if rest2.length < n0 + 256 * n1 then none
        else
          (fun is => Instr.push (rest2.take (n0 + 256 * n1)) :: is) <$>
            decodeAux fuel (rest2.drop (n0 + 256 * n1))
      | _ => none
    else if b = 78 then
      match rest with
      | n0 :: n1 :: n2 :: n3 :: rest2 =>
        if rest2.length < n0 + 256 * n1 + 65536 * n2 + 16777216 * n3 then none
        else
          (fun is =>
            Instr.push (rest2.take (n0 + 256 * n1 + 65536 * n2 + 16777216 * n3)) :: is) <$>
            decodeAux fuel (rest2.drop (n0 + 256 * n1 + 65536 * n2 + 16777216 * n3))
      | _ => none
    else (fun is => Instr.op b :: is) <$> decodeAux fuel rest

/-- Tokenize a raw script into its instruction sequence; `none` is the
`MalformedScript` outcome. -/
def decodeInstructions (script : List Nat) : Option (List Instr) :=
  decodeAux script.length script

/-- `extract_op0`: pop the front instruction and require an empty push. The
popped instruction is gone from the queue whether or not it matched. -/
def extract_op0 : List Instr → Option Unit × List Instr
  | [] => (none, [])
  | Instr.push b :: rest => (if b.isEmpty then some () else none, rest)
  | Instr.op _ :: rest => (none, rest)

/-- `extract_opif`: pop the front instruction and require the opcode OP_IF. -/
def extract_opif : List Instr → Option Unit × List Instr
  | [] => (none, [])
  | Instr.op c :: rest => (if c = OP_IF then some () else none, rest)
  | Instr.push _ :: rest => (none, rest)

/-- `extract_ord`: pop the front instruction and require the protocol tag
push. -/
def extract_ord : List Instr → Option Unit × List Instr
  | [] => (none, [])
  | Instr.push b :: rest => (if b = ordBytes then some () else none, rest)
  | Instr.op _ :: rest => (none, rest)

/-- `extract_push1`: pop the front instruction and require the single-byte
push of the value one. -/
def extract_push1 : List Instr → Option Unit × List Instr
  | [] => (none, [])
  | Instr.push b :: rest => (if b = [1] then some () else none, rest)
  | Instr.op _ :: rest => (none, rest)

/-- `extract_until_op0`: pop instructions until an empty push is found. An
opcode makes `push_bytes()` return `None`, which the question-mark operator
propagates at once: the opcode is consumed and the whole scan fails. -/
def extract_until_op0 : List Instr → Option Unit × List Instr
  | [] => (none, [])
  | Instr.op _ :: rest => (none, rest)
  | Instr.push b :: rest =>
    if b.isEmpty then (some (), rest) else extract_until_op0 rest

/-- `extract_media_type`: pop the front instruction and decode its push bytes
as UTF-8; an opcode or invalid UTF-8 yields `none` with the instruction
consumed. -/
def extract_media_type : List Instr → Option (List Char) × List Instr
  | [] => (none, [])
  | Instr.push b :: rest => (utf8Decode b, rest)
  | Instr.op _ :: rest => (none, rest)

/-- `extract_opendif`: peek at the front instruction and pop it only when it
is the opcode OP_ENDIF. -/
def extract_opendif : List Instr → Option Unit × List Instr
  | [] => (none, [])
  | Instr.op c :: rest =>
    if c = OP_ENDIF then (some (), rest) else (none, Instr.op c :: rest)
  | Instr.push b :: rest => (none, Instr.push b :: rest)

/-- `extract_data`: concatenate the bytes of the leading pushes, stopping at
the first opcode, which stays in the queue. -/
def extract_data : List Instr → List Nat × List Instr
  | [] => ([], [])
  | Instr.op c :: rest => ([], Instr.op c :: rest)
  | Instr.push b :: rest =>
    let r := extract_data rest
    (b ++ r.1, r.2)

/-- One iteration of the scan loop in `extract_script`: the helper calls in
the order of the source, threading the queue, with `continue` modelled by
returning `none` together with the queue as mutated so far. -/
def scanStep (q0 : List Instr) : Option (List Char × List Nat) × List Instr :=
  match extract_op0 q0 with
  | (none, q1) => (none, q1)
  | (some _, q1) =>
    match extract_opif q1 with
    | (none, q2) => (none, q2)
    | (some _, q2) =>
      match extract_ord q2 with
      | (none, q3) => (none, q3)
      | (some _, q3) =>
        match extract_push1 q3 with
        | (none, q4) => (none, q4)
        | (some _, q4) =>
          match extract_media_type q4 with
          | (none, q5) => (none, q5)
          | (some mediaType, q5) =>
            match extract_until_op0 q5 with
            | (none, q6) => (none, q6)
            | (some _, q6) =>
              match extract_data q6 with
              | (data, q7) =>
                match extract_opendif q7 with
                | (none, q8) => (none, q8)
                | (some _, q8) => (some (mediaType, data), q8)

/-- The `while !instructions.is_empty()` loop of `extract_script`, with a
fuel argument for structural recursion; every iteration consumes at least
one instruction (the pop in `extract_op0`), so fuel equal to the queue
length never runs out. -/
def loopAux : Nat → List Instr → List (List Char × List Nat)
  | 0, _ => []
  | _, [] => []
  | fuel + 1, x :: xs =>
    match scanStep (x :: xs) with
    | (some r, q) => r :: loopAux fuel q
    | (none, q) => loopAux fuel q

/-- The scan loop of `extract_script` run on a decoded instruction queue. -/
def extract_script_loop (instrs : List Instr) : List (List Char × List Nat) :=
  loopAux instrs.length instrs

/-- `extract_script`: tokenize the raw script bytes and scan; a tokenization
error returns the empty inscription list. -/
def extract_script (script : List Nat) : List (List Char × List Nat) :=
  match decodeInstructions script with
  | none => []
  | some instrs => extract_script_loop instrs

/-- One transaction input; the witness-to-tapscript projection
(`witness.tapscript()`) is a library collaborator, so the input carries the
already-projected optional leaf script. -/
structure TxIn where
  tapscript : Option (List Nat)

/-- The slice of a transaction the extractor consumes: its id (32 bytes,
displayed in reverse order) and its inputs. -/
structure Transaction where
  txid : List Nat
  inputs : List TxIn

/-- `extract_inscription`: project the tapscript and scan it. -/
def extract_inscription (txin : TxIn) : Option (List (List Char × List Nat)) :=
  txin.tapscript.map extract_script

/-- An extracted inscription record (`Inscription` in src/inscription.rs). -/
structure Inscription where
  txid : List Nat
  index : Nat
  mime : List Char
  data : List Nat
  parsed : ParsedData

/-- `Iterator::enumerate` starting from a given index. -/
def enumFrom : Nat → List α → List (Nat × α)
  | _, [] => []
  | i, x :: xs => (i, x) :: enumFrom (i + 1) xs

/-- `Inscription::extract_witness`: look up the input (an out-of-range index
is the error case, `none` here), scan its witness, and number the resulting
envelopes by their position within that one witness. -/
def extract_witness (jsonParse : List Char → Option JsonValue)
    (imageLoad : List Nat → Option ImageData)
    (tx : Transaction) (input : Nat) : Option (List Inscription) :=
  match tx.inputs.get? input with
  | none => none
  | some txin =>
    match extract_inscription txin with
    | some inscriptions =>
      some ((enumFrom 0 inscriptions).map fun p =>
        { txid := tx.txid, index := p.1, mime := p.2.1, data := p.2.2
          parsed := parse_data jsonParse imageLoad p.2.2 p.2.1 })
    | none => some []

def hexDigitChar (n : Nat) : Char :=
  if n < 10 then Char.ofNat (48 + n) else Char.ofNat (87 + n)

/-- Lower-case hex rendering of one byte. -/
def byteToHex (b : Nat) : List Char := [hexDigitChar (b / 16), hexDigitChar (b % 16)]

/-- `Txid` display: the 32 bytes are shown reversed, in lower-case hex. -/
def txidToStr (t : List Nat) : List Char := (t.reverse.map byteToHex).flatten

def hexCharVal (c : Char) : Option Nat :=
  if 48 ≤ c.toNat ∧ c.toNat ≤ 57 then some (c.toNat - 48)
  else if 97 ≤ c.toNat ∧ c.toNat ≤ 102 then some (c.toNat - 87)
  else if 65 ≤ c.toNat ∧ c.toNat ≤ 70 then some (c.toNat - 55)
  else none

def hexToBytes : List Char → Option (List Nat)
  | [] => some []
  | c1 :: c2 :: rest =>
    match hexCharVal c1, hexCharVal c2 with
    | some hi, some lo => (fun bs => (hi * 16 + lo) :: bs) <$> hexToBytes rest
    | _, _ => none
  | _ :: [] => none

/-- `Txid` parsing: exactly 64 hex characters, un-reversed into bytes. -/
def txidFromStr (s : List Char) : Option (List Nat) :=
  if s.length = 64 then (fun bs => bs.reverse) <$> hexToBytes s else none

def digitChar (d : Nat) : Char := Char.ofNat (48 + d)

/-- Decimal digits of a number, most significant first, with fuel for
structural recursion (fuel above the number always suffices). -/
def natDigitsAux : Nat → Nat → List Nat
  | 0, _ => []
  | fuel + 1, n => if n < 10 then [n] else natDigitsAux fuel (n / 10) ++ [n % 10]

/-- Decimal rendering of an index (`usize` display). -/
def natToStr (n : Nat) : List Char := (natDigitsAux (n + 1) n).map digitChar

def digitVal (c : Char) : Option Nat :=
  if 48 ≤ c.toNat ∧ c.toNat ≤ 57 then some (c.toNat - 48) else none

def strToNatAux : Nat → List Char → Option Nat
  | acc, [] => some acc
  | acc, c :: cs =>
    match digitVal c with
    | some d => strToNatAux (acc * 10 + d) cs
    | none => none

/-- `usize::from_str`: digits with an optional leading plus sign, rejecting
the empty string. -/
def strToNat (s : List Char) : Option Nat :=
  match s with
  | [] => none
  | c :: rest =>
    if c = '+' then (if rest.isEmpty then none else strToNatAux 0 rest)
    else strToNatAux 0 (c :: rest)

/-- `str::split` on a single character: the list of fragments between
occurrences, never empty. -/
def splitOnChar (c : Char) : List Char → List (List Char)
  | [] => [[]]
  | x :: xs =>
    if x = c then [] :: splitOnChar c xs
    else
      match splitOnChar c xs with
      | [] => [[x]]
      | y :: ys => (x :: y) :: ys

/-- `InscriptionId` display and `Inscription::inscription_id`: the txid, the
letter i, then the index. -/
def inscriptionIdToStr (txid : List Nat) (index : Nat) : List Char :=
  txidToStr txid ++ 'i' :: natToStr index

/-- The identifier string of an extracted inscription. -/
def inscription_id (ins : Inscription) : List Char :=
  inscriptionIdToStr ins.txid ins.index

/-- `InscriptionId::from_str`: split on the letter i, parse the first
fragment as a txid and the second as an index. -/
def inscriptionIdFromStr (s : List Char) : Option (List Nat × Nat) :=
  match splitOnChar 'i' s with
  | t :: i :: _ =>
    match txidFromStr t, strToNat i with
    | some txid, some index => some (txid, index)
    | _, _ => none
  | _ => none

/-- The instruction sequence of one well-formed envelope: empty push, OP_IF,
the protocol tag, the format marker, the declared tag, the separator, the
payload pushes, OP_ENDIF. -/
def envelopeInstrs (tagBytes : List Nat) (payload : List (List Nat)) : List Instr :=
  Instr.push [] :: Instr.op OP_IF :: Instr.push ordBytes :: Instr.push [1] ::
    Instr.push tagBytes :: Instr.push [] :: (payload.map Instr.push ++ [Instr.op OP_ENDIF])

def tpBytes : List Nat := strBytes "text/plain"

def hwBytes : List Nat := strBytes "hello world"

def gwBytes : List Nat := strBytes "goodbye world"

/-- Byte encoding of the concrete single-envelope witness script of the spec
scenario: each push is its length byte followed by its data, the empty push
is the byte zero, OP_IF is 99 and OP_ENDIF is 104. -/
def c1bytes : List Nat :=
  [0, 99] ++ (3 :: ordBytes) ++ [1, 1] ++ (10 :: tpBytes) ++ [0] ++ (11 :: hwBytes) ++ [104]

theorem loopAux_nil (fuel : Nat) : loopAux fuel [] = [] := by
  cases fuel <;> rfl

theorem loopAux_succ_cons (fuel : Nat) (x : Instr) (xs : List Instr) :
    loopAux (fuel + 1) (x :: xs) =
      match scanStep (x :: xs) with
      | (some r, q) => r :: loopAux fuel q
      | (none, q) => loopAux fuel q := rfl

theorem extract_data_pushes (ps : List (List Nat)) (c : Nat) (rest : List Instr) :
    extract_data (ps.map Instr.push ++ Instr.op c :: rest) =
      (ps.flatten, Instr.op c :: rest) := by
  induction ps with
  | nil => simp [extract_data]
  | cons p ps ih => simp [extract_data, ih]

theorem scanStep_env (tagBytes : List Nat) (tag : List Char) (payload : List (List Nat))
    (rest : List Instr) (h : utf8Decode tagBytes = some tag) :
    scanStep (envelopeInstrs tagBytes payload ++ rest) = (some (tag, payload.flatten), rest) := by
  simp [envelopeInstrs, scanStep, extract_op0, extract_opif, extract_ord, extract_push1,
    extract_media_type, extract_until_op0, extract_opendif, h, extract_data_pushes,
    OP_IF, OP_ENDIF]

theorem envelopeInstrs_length (tagBytes : List Nat) (payload : List (List Nat)) :
    (envelopeInstrs tagBytes payload).length = payload.length + 7 := by
  simp [envelopeInstrs]

theorem loopAux_env_step (fuel : Nat) (tagBytes : List Nat) (tag : List Char)
    (payload : List (List Nat)) (rest : List Instr)
    (h : utf8Decode tagBytes = some tag) :
    loopAux (fuel + 1) (envelopeInstrs tagBytes payload ++ rest) =
      (tag, payload.flatten) :: loopAux fuel rest := by
  have hcons : envelopeInstrs tagBytes payload ++ rest =
      Instr.push [] :: (Instr.op OP_IF :: Instr.push ordBytes :: Instr.push [1] ::
        Instr.push tagBytes :: Instr.push []
          :: (payload.map Instr.push ++ [Instr.op OP_ENDIF]) ++ rest) := by
    simp [envelopeInstrs]
  rw [hcons, loopAux_succ_cons, ← hcons, scanStep_env _ _ _ _ h]

theorem loopAux_envs :
    ∀ (envs : List (List Nat × List Char × List (List Nat))) (fuel : Nat),
      ((envs.map fun e => envelopeInstrs e.1 e.2.2).flatten).length ≤ fuel →
      (∀ e ∈ envs, utf8Decode e.1 = some e.2.1) →
      loopAux fuel ((envs.map fun e => envelopeInstrs e.1 e.2.2).flatten) =
        envs.map fun e => (e.2.1, e.2.2.flatten) := by
  intro envs
  induction envs with
  | nil => intro fuel _ _; simpa using loopAux_nil fuel
  | cons e es ih =>
    intro fuel hlen henc
    rw [List.map_cons, List.flatten_cons] at hlen ⊢
    rw [List.length_append, envelopeInstrs_length] at hlen
    cases fuel with
    | zero => omega
    | succ f =>
      rw [loopAux_env_step f _ _ _ _ (henc e (by simp)), List.map_cons]
      rw [ih f (by omega) (fun e' he' => henc e' (by simp [he']))]

def c1envs : List (List Nat × List Char × List (List Nat)) :=
  [(tpBytes, "text/plain".data, [hwBytes]), (tpBytes, "text/plain".data, [gwBytes])]

/-- C1: for every witness script that is a concatenation of well-formed
envelopes (steps 1-7 of the grammar: empty push, OP_IF, the protocol tag, the
format marker, a UTF-8 tag push, an empty-push separator, payload pushes,
OP_ENDIF), the scan returns exactly one record per envelope, in encounter
order, with the encoded declared tag and the concatenated payload; and the
concrete byte script empty-push OP_IF ord 1 text/plain empty-push
hello-world OP_ENDIF extracts to exactly that one record. -/
theorem c1_envelopes_extract (envs : List (List Nat × List Char × List (List Nat)))
    (henc : ∀ e ∈ envs, utf8Decode e.1 = some e.2.1) :
    extract_script_loop ((envs.map fun e => envelopeInstrs e.1 e.2.2).flatten) =
      (envs.map fun e => (e.2.1, e.2.2.flatten)) ∧
    extract_script c1bytes = [("text/plain".data, hwBytes)] :=
  ⟨loopAux_envs envs _ (Nat.le_refl _) henc, by rfl⟩

/-- Witness for C1 at a two-envelope script carrying hello-world and
goodbye-world payloads. -/
theorem c1_envelopes_extract_witness :
    (∀ e ∈ c1envs, utf8Decode e.1 = some e.2.1) ∧
    extract_script_loop ((c1envs.map fun e => envelopeInstrs e.1 e.2.2).flatten) =
      (c1envs.map fun e => (e.2.1, e.2.2.flatten)) :=
  ⟨by decide, (c1_envelopes_extract c1envs (by decide)).1⟩

theorem extract_op0_snd (x : Instr) (rest : List Instr) :
    (extract_op0 (x :: rest)).2 = rest := by
  cases x <;> rfl

theorem extract_opif_snd_le (q : List Instr) : ((extract_opif q).2).length ≤ q.length := by
  cases q with
  | nil => simp [extract_opif]
  | cons x rest => cases x <;> simp [extract_opif]

theorem extract_ord_snd_le (q : List Instr) : ((extract_ord q).2).length ≤ q.length := by
  cases q with
  | nil => simp [extract_ord]
  | cons x rest => cases x <;> simp [extract_ord]

theorem extract_push1_snd_le (q : List Instr) : ((extract_push1 q).2).length ≤ q.length := by
  cases q with
  | nil => simp [extract_push1]
  | cons x rest => cases x <;> simp [extract_push1]

theorem extract_media_type_snd_le (q : List Instr) :
    ((extract_media_type q).2).length ≤ q.length := by
  cases q with
  | nil => simp [extract_media_type]
  | cons x rest => cases x <;> simp [extract_media_type]

theorem extract_until_op0_snd_le (q : List Instr) :
    ((extract_until_op0 q).2).length ≤ q.length := by
  induction q with
  | nil => simp [extract_until_op0]
  | cons x rest ih =>
    cases x with
    | op c => simp [extract_until_op0]
    | push b =>
      by_cases hb : b.isEmpty
      · simp [extract_until_op0, hb]
      · simp only [extract_until_op0, hb, Bool.false_eq_true, if_false, List.length_cons]
        omega

theorem extract_data_snd_le (q : List Instr) : ((extract_data q).2).length ≤ q.length := by
  induction q with
  | nil => simp [extract_data]
  | cons x rest ih =>
    cases x with
    | op c => simp [extract_data]
    | push b => simp [extract_data]; omega

theorem extract_opendif_snd_le (q : List Instr) :
    ((extract_opendif q).2).length ≤ q.length := by
  cases q with
  | nil => simp [extract_opendif]
  | cons x rest =>
    cases x with
    | op c =>
      by_cases h : c = OP_ENDIF
      · simp [extract_opendif, h]
      · simp [extract_opendif, h]
    | push b => simp [extract_opendif]

theorem scanStep_snd_le (x : Instr) (rest : List Instr) :
    ((scanStep (x :: rest)).2).length ≤ rest.length := by
  have h0 := extract_op0_snd x rest
  rcases e0 : extract_op0 (x :: rest) with ⟨r0, q1⟩
  rw [e0] at h0
  have hq1 : q1 = rest := h0
  have h1 := extract_opif_snd_le q1
  rcases e1 : extract_opif q1 with ⟨r1, q2⟩
  rw [e1] at h1
  have h2 := extract_ord_snd_le q2
  rcases e2 : extract_ord q2 with ⟨r2, q3⟩
  rw [e2] at h2
  have h3 := extract_push1_snd_le q3
  rcases e3 : extract_push1 q3 with ⟨r3, q4⟩
  rw [e3] at h3
  have h4 := extract_media_type_snd_le q4
  rcases e4 : extract_media_type q4 with ⟨r4, q5⟩
  rw [e4] at h4
  have h5 := extract_until_op0_snd_le q5
  rcases e5 : extract_until_op0 q5 with ⟨r5, q6⟩
  rw [e5] at h5
  have h6 := extract_data_snd_le q6
  rcases e6 : extract_data q6 with ⟨d, q7⟩
  rw [e6] at h6
  have h7 := extract_opendif_snd_le q7
  rcases e7 : extract_opendif q7 with ⟨r7, q8⟩
  rw [e7] at h7
  simp only [] at h0 h1 h2 h3 h4 h5 h6 h7
  subst hq1
  cases r0 <;> cases r1 <;> cases r2 <;> cases r3 <;> cases r4 <;> cases r5 <;> cases r7 <;>
    simp only [scanStep, e0, e1, e2, e3, e4, e5, e6, e7] <;> omega

theorem scanStep_shrinks (q : List Instr) (h : q ≠ []) :
    ((scanStep q).2).length < q.length := by
  match q with
  | x :: rest =>
    have := scanStep_snd_le x rest
    simp only [List.length_cons]
    omega

/-- C9: the envelope scan terminates on every finite instruction sequence
because every iteration of the scan loop removes at least one instruction
from the front of the queue (the start-marker check consumes the instruction
it examines whether or not it matches), so the queue length strictly
decreases until the queue is empty. -/
theorem c9_scan_step_decreases (q : List Instr) (h : q ≠ []) :
    ((scanStep q).2).length < q.length :=
  scanStep_shrinks q h

/-- Witness for C9 at a one-instruction queue holding a bare OP_CHECKSIG. -/
theorem c9_scan_step_decreases_witness :
    (([Instr.op OP_CHECKSIG] : List Instr) ≠ []) ∧
      ((scanStep [Instr.op OP_CHECKSIG]).2).length <
        ([Instr.op OP_CHECKSIG] : List Instr).length :=
  ⟨by decide, c9_scan_step_decreases [Instr.op OP_CHECKSIG] (by decide)⟩

/-- C2 counterexample: the one-byte script 5 declares a five-byte push with
no data, so tokenization fails, yet `extract_script` returns the empty list
instead of propagating an error (its Rust signature has no error channel at
all: the `Err` branch is swallowed by an early `return` of the empty vec). -/
theorem c2_swallowed_error_counterexample :
    decodeInstructions [5] = none ∧ extract_script [5] = [] := ⟨rfl, rfl⟩

/-- C2 (amended): whenever tokenization of the raw witness script bytes
fails, `extract_script` silently returns the empty result list for that
input; no error is propagated to the caller. -/
theorem c2_malformed_returns_empty (script : List Nat)
    (h : decodeInstructions script = none) : extract_script script = [] := by
  simp [extract_script, h]

/-- Witness for C2 at the one-byte script 76, an OP_PUSHDATA1 with no length
byte. -/
theorem c2_malformed_returns_empty_witness :
    decodeInstructions [76] = none ∧ extract_script [76] = [] :=
  ⟨rfl, c2_malformed_returns_empty [76] rfl⟩

/-- C3 counterexample: the single-envelope script with the format-marker push
of the byte one omitted yields no envelope at all, not a tag-less envelope
with an empty declared tag. -/
theorem c3_missing_marker_counterexample :
    extract_script_loop [Instr.push [], Instr.op OP_IF, Instr.push ordBytes,
      Instr.push tpBytes, Instr.push [], Instr.push hwBytes, Instr.op OP_ENDIF] = [] := rfl

/-- C3 (amended): after the start marker and the protocol tag have matched,
if the next instruction is not the push of the single byte one, that
instruction is consumed and the candidate is abandoned: no envelope is
emitted and scanning resumes after the consumed instruction. -/
theorem c3_missing_marker_aborts (x : Instr) (rest : List Instr)
    (h : x ≠ Instr.push [1]) :
    scanStep (Instr.push [] :: Instr.op OP_IF :: Instr.push ordBytes :: x :: rest) =
      (none, rest) := by
  cases x with
  | op c =>
    simp [scanStep, extract_op0, extract_opif, extract_ord, extract_push1, OP_IF]
  | push b =>
    have hb : b ≠ [1] := fun hb => h (by rw [hb])
    simp [scanStep, extract_op0, extract_opif, extract_ord, extract_push1, OP_IF, hb]

/-- Witness for C3 with a declared-tag push sitting where the format marker
should be. -/
theorem c3_missing_marker_aborts_witness :
    (Instr.push tpBytes ≠ Instr.push [1]) ∧
      scanStep (Instr.push [] :: Instr.op OP_IF :: Instr.push ordBytes ::
        Instr.push tpBytes :: []) = (none, []) :=
  ⟨by decide, c3_missing_marker_aborts (Instr.push tpBytes) [] (by decide)⟩

/-- C4 counterexample: an envelope whose declared-tag push is the lone byte
255 (invalid UTF-8) is dropped entirely; no envelope is extracted. -/
theorem c4_invalid_utf8_counterexample :
    extract_script_loop [Instr.push [], Instr.op OP_IF, Instr.push ordBytes,
      Instr.push [1], Instr.push [255], Instr.push [], Instr.push hwBytes,
      Instr.op OP_ENDIF] = [] := rfl

/-- C4 (amended): when the declared-tag push is not valid UTF-8, the envelope
candidate is abandoned right there: the tag instruction is consumed, no
envelope is emitted, and scanning resumes after it. -/
theorem c4_invalid_utf8_drops (tagBytes : List Nat) (rest : List Instr)
    (h : utf8Decode tagBytes = none) :
    scanStep (Instr.push [] :: Instr.op OP_IF :: Instr.push ordBytes :: Instr.push [1] ::
      Instr.push tagBytes :: rest) = (none, rest) := by
  simp [scanStep, extract_op0, extract_opif, extract_ord, extract_push1,
    extract_media_type, OP_IF, h]

/-- Witness for C4 with the invalid tag byte 255. -/
theorem c4_invalid_utf8_drops_witness :
    utf8Decode [255] = none ∧
      scanStep (Instr.push [] :: Instr.op OP_IF :: Instr.push ordBytes :: Instr.push [1] ::
        Instr.push [255] :: []) = (none, []) :=
  ⟨rfl, c4_invalid_utf8_drops [255] [] rfl⟩

/-- C5 counterexample: a single opcode (OP_CHECKSIG) standing between the
declared tag and the empty-push separator makes the whole envelope fail,
although the claim says instructions of any kind are skipped there. -/
theorem c5_opcode_in_separator_counterexample :
    extract_script_loop [Instr.push [], Instr.op OP_IF, Instr.push ordBytes,
      Instr.push [1], Instr.push tpBytes, Instr.op OP_CHECKSIG, Instr.push [],
      Instr.push hwBytes, Instr.op OP_ENDIF] = [] := rfl

theorem extract_until_op0_pushes :
    ∀ (ps : List (List Nat)) (rest : List Instr), (∀ p ∈ ps, p ≠ []) →
      extract_until_op0 (ps.map Instr.push ++ Instr.push [] :: rest) = (some (), rest) := by
  intro ps
  induction ps with
  | nil => intro rest _; simp [extract_until_op0]
  | cons p ps ih =>
    intro rest hps
    have hp : p ≠ [] := hps p (by simp)
    have hne : p.isEmpty = false := by
      cases p with
      | nil => exact absurd rfl hp
      | cons a as => rfl
    simp only [List.map_cons, List.cons_append, extract_until_op0, hne]
    exact ih rest (fun q hq => hps q (by simp [hq]))

theorem extract_until_op0_no_sep :
    ∀ (ps : List (List Nat)), (∀ p ∈ ps, p ≠ []) →
      extract_until_op0 (ps.map Instr.push) = (none, []) := by
  intro ps
  induction ps with
  | nil => intro _; rfl
  | cons p ps ih =>
    intro hps
    have hp : p ≠ [] := hps p (by simp)
    have hne : p.isEmpty = false := by
      cases p with
      | nil => exact absurd rfl hp
      | cons a as => rfl
    simp only [List.map_cons, extract_until_op0, hne]
    exact ih (fun q hq => hps q (by simp [hq]))

/-- C5 (amended): the data-separator scan consumes and discards non-empty
pushes (so extra vendor push data between the content-type tag and the
payload is tolerated) until an empty push is found; but an opcode
encountered during this scan is consumed and fails the whole candidate, and
if the stream is exhausted before an empty push appears the candidate also
fails with nothing emitted. -/
theorem c5_separator_scan (ps : List (List Nat)) (c : Nat) (rest : List Instr)
    (hps : ∀ p ∈ ps, p ≠ []) :
    extract_until_op0 (ps.map Instr.push ++ Instr.push [] :: rest) = (some (), rest) ∧
    extract_until_op0 (Instr.op c :: rest) = (none, rest) ∧
    extract_until_op0 (ps.map Instr.push) = (none, []) :=
  ⟨extract_until_op0_pushes ps rest hps, rfl, extract_until_op0_no_sep ps hps⟩

/-- Witness for C5 with one vendor push of the byte 118. -/
theorem c5_separator_scan_witness :
    (∀ p ∈ [[118]], p ≠ ([] : List Nat)) ∧
      (extract_until_op0 (([[118]] : List (List Nat)).map Instr.push ++
        Instr.push [] :: []) = (some (), []) ∧
      extract_until_op0 (Instr.op OP_CHECKSIG :: []) = (none, []) ∧
      extract_until_op0 (([[118]] : List (List Nat)).map Instr.push) = (none, [])) :=
  ⟨by decide, c5_separator_scan [[118]] OP_CHECKSIG [] (by decide)⟩

/-- C6: classification is a total deterministic function whose result is
decided in the order of the source: UTF-8 validity of the payload first;
among UTF-8 payloads a tag that case-insensitively contains html gives Html,
otherwise a successful JSON parse gives Json, otherwise Text; image sniffing
is attempted only when UTF-8 decoding failed, and non-UTF-8 non-image
payloads are Binary. -/
theorem c6_classification_order (jsonParse : List Char → Option JsonValue)
    (imageLoad : List Nat → Option ImageData) (data : List Nat) (mime : List Char) :
    (∀ text, utf8Decode data = some text →
      (strContains (mime.map asciiLower) htmlStr = true →
        parse_data jsonParse imageLoad data mime = ParsedData.Html text) ∧
      (strContains (mime.map asciiLower) htmlStr = false →
        (∀ value, jsonParse text = some value →
          parse_data jsonParse imageLoad data mime = ParsedData.Json value) ∧
        (jsonParse text = none →
          parse_data jsonParse imageLoad data mime = ParsedData.Text text))) ∧
    (utf8Decode data = none →
      (∀ img, imageLoad data = some img →
        parse_data jsonParse imageLoad data mime = ParsedData.Image img) ∧
      (imageLoad data = none →
        parse_data jsonParse imageLoad data mime = ParsedData.Binary)) := by
  constructor
  · intro text htext
    constructor
    · intro hhtml
      simp [parse_data, htext, hhtml]
    · intro hhtml
      constructor
      · intro value hv
        simp [parse_data, htext, hhtml, hv]
      · intro hv
        simp [parse_data, htext, hhtml, hv]
  · intro hnone
    constructor
    · intro img himg
      simp [parse_data, hnone, himg]
    · intro himg
      simp [parse_data, hnone, himg]

/-- Witness for C6 at the non-UTF-8 non-image payload of the single byte 255
with trivial parser and sniffer oracles. -/
theorem c6_classification_order_witness :
    utf8Decode [255] = none ∧
      parse_data (fun _ => none) (fun _ => none) [255] ['x'] = ParsedData.Binary :=
  ⟨rfl,
    ((c6_classification_order (fun _ => none) (fun _ => none) [255] ['x']).2 rfl).2 rfl⟩

/-- C7: `is_brc20` is true exactly when the content is classified Json and
the parsed top-level value is a JSON object whose field p is the string
brc-20; it is false (never an error) for arrays, scalars, objects without
that field or with another value, and for every non-Json classification. -/
theorem c7_is_brc20_iff (pd : ParsedData) :
    is_brc20 pd = true ↔
      ∃ fields, pd = ParsedData.Json (JsonValue.obj fields) ∧
        jsonLookup fields pKey = some (JsonValue.str brc20Str) := by
  cases pd with
  | Json j =>
    cases j with
    | obj fields =>
      simp only [is_brc20, jsonGet]
      cases hlk : jsonLookup fields pKey with
      | none => simp [hlk]
      | some v => cases v <;> simp [hlk]
    | null => simp [is_brc20, jsonGet]
    | bool b => simp [is_brc20, jsonGet]
    | num n => simp [is_brc20, jsonGet]
    | str s => simp [is_brc20, jsonGet]
    | arr elems => simp [is_brc20, jsonGet]
  | Binary => simp [is_brc20]
  | Html text => simp [is_brc20]
  | Image img => simp [is_brc20]
  | Text text => simp [is_brc20]

theorem natDigitsAux_spec :
    ∀ (fuel n : Nat), n < fuel →
      (∀ d ∈ natDigitsAux fuel n, d < 10) ∧
      natDigitsAux fuel n ≠ [] ∧
      ∀ acc : Nat, (natDigitsAux fuel n).foldl (fun a d => a * 10 + d) acc =
        acc * 10 ^ (natDigitsAux fuel n).length + n := by
  intro fuel
  induction fuel with
  | zero => intro n h; omega
  | succ f ih =>
    intro n h
    by_cases h10 : n < 10
    · refine ⟨?_, ?_, ?_⟩
      · intro d hd
        simp [natDigitsAux, h10] at hd
        omega
      · simp [natDigitsAux, h10]
      · intro acc
        simp [natDigitsAux, h10]
    · obtain ⟨hd, hne, hfold⟩ := ih (n / 10) (by omega)
      refine ⟨?_, ?_, ?_⟩
      · intro d hdm
        simp only [natDigitsAux, if_neg h10, List.mem_append, List.mem_singleton] at hdm
        rcases hdm with hdm | hdm
        · exact hd d hdm
        · omega
      · simp [natDigitsAux, h10]
      · intro acc
        simp only [natDigitsAux, if_neg h10]
        rw [List.foldl_append, hfold acc]
        simp only [List.foldl_cons, List.foldl_nil, List.length_append,
          List.length_singleton]
        have hdm : n / 10 * 10 + n % 10 = n := by omega
        calc (acc * 10 ^ (natDigitsAux f (n / 10)).length + n / 10) * 10 + n % 10
            = acc * (10 ^ (natDigitsAux f (n / 10)).length * 10) +
                (n / 10 * 10 + n % 10) := by ring
          _ = acc * 10 ^ ((natDigitsAux f (n / 10)).length + 1) + n := by
              rw [hdm, pow_succ]

theorem digitVal_digitChar (d : Nat) (h : d < 10) : digitVal (digitChar d) = some d := by
  interval_cases d <;> rfl

theorem digitChar_ne_i (d : Nat) (h : d < 10) : digitChar d ≠ 'i' := by
  interval_cases d <;> decide

theorem digitChar_ne_plus (d : Nat) (h : d < 10) : digitChar d ≠ '+' := by
  interval_cases d <;> decide

theorem strToNatAux_digits :
    ∀ (ds : List Nat) (acc : Nat), (∀ d ∈ ds, d < 10) →
      strToNatAux acc (ds.map digitChar) = some (ds.foldl (fun a d => a * 10 + d) acc) := by
  intro ds
  induction ds with
  | nil => intro acc _; rfl
  | cons d ds ih =>
    intro acc hds
    have hd : d < 10 := hds d (by simp)
    simp only [List.map_cons, strToNatAux, digitVal_digitChar d hd, List.foldl_cons]
    exact ih (acc * 10 + d) (fun x hx => hds x (by simp [hx]))

theorem strToNat_natToStr (n : Nat) : strToNat (natToStr n) = some n := by
  obtain ⟨hd, hne, hfold⟩ := natDigitsAux_spec (n + 1) n (Nat.lt_succ_self n)
  unfold natToStr
  cases hds : natDigitsAux (n + 1) n with
  | nil => exact absurd hds hne
  | cons d ds =>
    have hd0 : d < 10 := hd d (by rw [hds]; simp)
    have hplus : digitChar d ≠ '+' := digitChar_ne_plus d hd0
    simp only [List.map_cons, strToNat, if_neg hplus]
    rw [← List.map_cons, strToNatAux_digits (d :: ds) 0
      (by intro x hx; apply hd; rw [hds]; exact hx)]
    have h0 := hfold 0
    rw [hds] at h0
    simpa using h0

theorem natToStr_no_i (n : Nat) : ∀ c ∈ natToStr n, c ≠ 'i' := by
  obtain ⟨hd, -, -⟩ := natDigitsAux_spec (n + 1) n (Nat.lt_succ_self n)
  intro c hc
  unfold natToStr at hc
  rw [List.mem_map] at hc
  obtain ⟨d, hdm, rfl⟩ := hc
  exact digitChar_ne_i d (hd d hdm)

theorem hexCharVal_hexDigitChar (n : Nat) (h : n < 16) :
    hexCharVal (hexDigitChar n) = some n := by
  interval_cases n <;> rfl

theorem hexDigitChar_ne_i (n : Nat) (h : n < 16) : hexDigitChar n ≠ 'i' := by
  interval_cases n <;> decide

theorem hexToBytes_roundtrip :
    ∀ (bs : List Nat), (∀ b ∈ bs, b < 256) →
      hexToBytes ((bs.map byteToHex).flatten) = some bs := by
  intro bs
  induction bs with
  | nil => intro _; rfl
  | cons b bs ih =>
    intro hbs
    have hb : b < 256 := hbs b (by simp)
    have h1 : b / 16 < 16 := by omega
    have h2 : b % 16 < 16 := by omega
    simp only [List.map_cons, List.flatten_cons, byteToHex, List.cons_append,
      List.nil_append]
    simp only [hexToBytes, hexCharVal_hexDigitChar _ h1, hexCharVal_hexDigitChar _ h2]
    rw [ih (fun x hx => hbs x (by simp [hx]))]
    have hdm : b / 16 * 16 + b % 16 = b := by omega
    simp [hdm]

theorem byteToHex_flatten_length (bs : List Nat) :
    ((bs.map byteToHex).flatten).length = 2 * bs.length := by
  induction bs with
  | nil => rfl
  | cons b bs ih =>
    simp only [List.map_cons, List.flatten_cons, List.length_append, byteToHex, ih]
    simp
    omega

theorem txidToStr_no_i (t : List Nat) (hbytes : ∀ b ∈ t, b < 256) :
    ∀ c ∈ txidToStr t, c ≠ 'i' := by
  intro c hc
  unfold txidToStr at hc
  rw [List.mem_flatten] at hc
  obtain ⟨l, hl, hcl⟩ := hc
  rw [List.mem_map] at hl
  obtain ⟨b, hb, rfl⟩ := hl
  have hb' : b < 256 := hbytes b (List.mem_reverse.mp hb)
  have h1 : b / 16 < 16 := by omega
  have h2 : b % 16 < 16 := by omega
  simp only [byteToHex, List.mem_cons, List.mem_singleton, List.not_mem_nil,
    or_false] at hcl
  rcases hcl with rfl | rfl
  · exact hexDigitChar_ne_i _ h1
  · exact hexDigitChar_ne_i _ h2

theorem txidFromStr_roundtrip (t : List Nat) (hlen : t.length = 32)
    (hbytes : ∀ b ∈ t, b < 256) : txidFromStr (txidToStr t) = some t := by
  unfold txidFromStr txidToStr
  have hL : ((t.reverse.map byteToHex).flatten).length = 64 := by
    rw [byteToHex_flatten_length, List.length_reverse, hlen]
  rw [if_pos hL]
  rw [hexToBytes_roundtrip t.reverse (fun b hb => hbytes b (List.mem_reverse.mp hb))]
  simp

theorem splitOnChar_no (c : Char) :
    ∀ (l : List Char), (∀ x ∈ l, x ≠ c) → splitOnChar c l = [l] := by
  intro l
  induction l with
  | nil => intro _; rfl
  | cons x xs ih =>
    intro h
    have hx : x ≠ c := h x (by simp)
    simp only [splitOnChar, if_neg hx]
    rw [ih (fun y hy => h y (by simp [hy]))]

theorem splitOnChar_append (c : Char) :
    ∀ (A B : List Char), (∀ x ∈ A, x ≠ c) →
      splitOnChar c (A ++ c :: B) = A :: splitOnChar c B := by
  intro A
  induction A with
  | nil => intro B _; simp [splitOnChar]
  | cons x xs ih =>
    intro B h
    have hx : x ≠ c := h x (by simp)
    simp only [List.cons_append, splitOnChar, if_neg hx, List.append_eq]
    rw [ih B (fun y hy => h y (by simp [hy]))]

/-- C8: the inscription identifier round-trips: for every 32-byte transaction
id and every index, formatting the pair as the txid, the letter i, then the
index, and parsing that string back, recovers exactly the original pair. -/
theorem c8_inscription_id_roundtrip (t : List Nat) (index : Nat)
    (hlen : t.length = 32) (hbytes : ∀ b ∈ t, b < 256) :
    inscriptionIdFromStr (inscriptionIdToStr t index) = some (t, index) := by
  unfold inscriptionIdToStr inscriptionIdFromStr
  rw [splitOnChar_append 'i' (txidToStr t) (natToStr index) (txidToStr_no_i t hbytes)]
  rw [splitOnChar_no 'i' (natToStr index) (natToStr_no_i index)]
  simp only [txidFromStr_roundtrip t hlen hbytes, strToNat_natToStr index]

/-- Witness for C8 at the all-zero txid and index three. -/
theorem c8_inscription_id_roundtrip_witness :
    ((List.replicate 32 0 : List Nat).length = 32 ∧
        ∀ b ∈ (List.replicate 32 0 : List Nat), b < 256) ∧
      inscriptionIdFromStr (inscriptionIdToStr (List.replicate 32 0) 3) =
        some (List.replicate 32 0, 3) :=
  ⟨⟨by decide, by decide⟩,
    c8_inscription_id_roundtrip (List.replicate 32 0) 3 (by decide) (by decide)⟩

theorem enumFrom_length : ∀ (xs : List α) (n : Nat), (enumFrom n xs).length = xs.length := by
  intro xs
  induction xs with
  | nil => intro n; rfl
  | cons x xs ih => intro n; simp [enumFrom, ih]

theorem enumFrom_getElem_fst :
    ∀ (xs : List α) (n i : Nat) (h : i < (enumFrom n xs).length),
      ((enumFrom n xs).get ⟨i, h⟩).1 = n + i := by
  intro xs
  induction xs with
  | nil => intro n i h; simp [enumFrom] at h
  | cons x xs ih =>
    intro n i h
    cases i with
    | zero => rfl
    | succ j =>
      have hj : j < (enumFrom (n + 1) xs).length := by
        simpa [enumFrom] using h
      have hrec := ih (n + 1) j hj
      simp only [enumFrom, List.get_cons_succ]
      rw [hrec]
      omega

/-- C10: every inscription produced from a single input's witness is numbered
by the zero-based position of its envelope within that one witness, not by
the input index, and the numeric component of its identifier string is
exactly that position; in particular the first envelope of any input gets
index zero. -/
theorem c10_intra_input_index (jsonParse : List Char → Option JsonValue)
    (imageLoad : List Nat → Option ImageData) (tx : Transaction) (input : Nat)
    (l : List Inscription) (h : extract_witness jsonParse imageLoad tx input = some l) :
    ∀ i (hi : i < l.length),
      (l.get ⟨i, hi⟩).index = i ∧
      inscription_id (l.get ⟨i, hi⟩) = txidToStr tx.txid ++ 'i' :: natToStr i := by
  unfold extract_witness at h
  cases hin : tx.inputs.get? input with
  | none => rw [hin] at h; simp at h
  | some txin =>
    rw [hin] at h
    simp only [] at h
    cases hex : extract_inscription txin with
    | none =>
      rw [hex] at h
      simp only [Option.some.injEq] at h
      subst h
      intro i hi
      simp at hi
    | some inscriptions =>
      rw [hex] at h
      simp only [Option.some.injEq] at h
      subst h
      intro i hi
      have hi' : i < (enumFrom 0 inscriptions).length := by
        simpa using hi
      have hfst := enumFrom_getElem_fst inscriptions 0 i hi'
      have hfst' : ((enumFrom 0 inscriptions).get ⟨i, hi'⟩).1 = i := by
        simpa using hfst
      simp only [List.get_eq_getElem, List.getElem_map]
      constructor
      · exact hfst'
      · show inscriptionIdToStr tx.txid ((enumFrom 0 inscriptions).get ⟨i, hi'⟩).1 = _
        rw [hfst']
        rfl

def jp0 : List Char → Option JsonValue := fun _ => none

def il0 : List Nat → Option ImageData := fun _ => none

/-- A concrete transaction whose second input carries a witness with two
back-to-back envelopes; the first input has no tapscript. -/
def tx0 : Transaction :=
  { txid := List.replicate 32 0
    inputs := [{ tapscript := none },
               { tapscript := some (c1bytes ++ ([0, 99] ++ (3 :: ordBytes) ++ [1, 1] ++
                   (10 :: tpBytes) ++ [0] ++ (13 :: gwBytes) ++ [104])) }] }

def l0 : List Inscription :=
  [{ txid := List.replicate 32 0, index := 0, mime := "text/plain".data, data := hwBytes
     parsed := ParsedData.Text "hello world".data },
   { txid := List.replicate 32 0, index := 1, mime := "text/plain".data, data := gwBytes
     parsed := ParsedData.Text "goodbye world".data }]

/-- Witness for C10: at input one of the concrete transaction, the two
envelopes get indices zero and one, independent of the input index. -/
theorem c10_intra_input_index_witness :
    extract_witness jp0 il0 tx0 1 = some l0 ∧
      (l0.get ⟨0, by decide⟩).index = 0 ∧
      (l0.get ⟨1, by decide⟩).index = 1 :=
  ⟨by rfl,
    (c10_intra_input_index jp0 il0 tx0 1 l0 (by rfl) 0 (by decide)).1,
    (c10_intra_input_index jp0 il0 tx0 1 l0 (by rfl) 1 (by decide)).1⟩
